import Mathlib

/-!
Verification of the SimCLR training / evaluation pipeline (`train.py`,
`eval_crop_optimized.py`) of the AIB-Project-rxrx1 repository.

Python strings are modelled as `List Char` (compared by Unicode code point,
as Python does), file directories as association lists from filenames to
file contents, tensors as (lists of) functions `Fin n → ℝ` or `Fin n → ℚ`,
and the NT-Xent loss over the reals.
-/

/-- Lexicographic (code-point) comparison of two character lists; this is the
`<` comparison Python uses on `str`. -/
def strLt : List Char → List Char → Bool
  | [], [] => false
  | [], _ :: _ => true
  | _ :: _, [] => false
  | a :: as, b :: bs =>
    if a.toNat < b.toNat then true
    else if b.toNat < a.toNat then false
    else strLt as bs

/-- Non-strict string comparison derived from `strLt`. -/
def strLe (a b : List Char) : Bool := !(strLt b a)

/-- Python's `sorted` on a list of strings: a stable sort by the
lexicographic order `strLe`. -/
def pySorted (l : List (List Char)) : List (List Char) :=
  List.insertionSort (fun a b => strLe a b = true) l

/-- Character for a decimal digit `d` (`0 ≤ d ≤ 9`). -/
def digitChar (d : ℕ) : Char := Char.ofNat (48 + d)

/-- Fuel-driven core of the decimal rendering of a natural number (the fuel
keeps the recursion structural so that terms reduce inside the kernel). -/
def natDigitsCore : ℕ → ℕ → List Char
  | 0, _ => []
  | fuel + 1, n =>
    if n < 10 then [digitChar n]
    else natDigitsCore fuel (n / 10) ++ [digitChar (n % 10)]

/-- Decimal rendering of a natural number, as produced by Python's
`str`/f-string formatting of a non-negative `int`. -/
def natDigits (n : ℕ) : List Char := natDigitsCore (n + 1) n

theorem natDigitsCore_eq_of_lt :
    ∀ (n : ℕ) (fuel fuel' : ℕ), n < fuel → n < fuel' →
      natDigitsCore fuel n = natDigitsCore fuel' n := by
  intro n
  induction n using Nat.strong_induction_on with
  | _ n ih =>
    intro fuel fuel' hf hf'
    match fuel, fuel', hf, hf' with
    | f + 1, f' + 1, hf, hf' =>
      simp only [natDigitsCore]
      split
      · rfl
      · next h =>
        have hdiv : n / 10 < n := Nat.div_lt_self (by omega) (by omega)
        rw [ih (n / 10) hdiv f (n / 10 + 1) (by omega) (by omega),
          ih (n / 10) hdiv f' (n / 10 + 1) (by omega) (by omega)]

/-- Unfolding equation for `natDigits`. -/
theorem natDigits_eq (n : ℕ) :
    natDigits n = if n < 10 then [digitChar n]
      else natDigits (n / 10) ++ [digitChar (n % 10)] := by
  show natDigitsCore (n + 1) n = _
  simp only [natDigitsCore]
  split
  · rfl
  · next h =>
    rw [natDigitsCore_eq_of_lt (n / 10) n (n / 10 + 1)
      (Nat.div_lt_self (by omega) (by omega)) (by omega)]
    rfl

/-- Python's `int(s)` on a string of decimal digits. -/
def parseDigits (s : List Char) : ℕ :=
  s.foldl (fun a c => a * 10 + (c.toNat - 48)) 0

/-- Python's `s.split(c)` for a single-character separator `c`. -/
def splitOnChar (c : Char) : List Char → List (List Char)
  | [] => [[]]
  | ch :: rest =>
    let r := splitOnChar c rest
    if ch = c then [] :: r
    else
      match r with
      | [] => [[ch]]
      | a :: as => (ch :: a) :: as

theorem digitChar_toNat {d : ℕ} (hd : d < 10) : (digitChar d).toNat = 48 + d := by
  interval_cases d <;> decide

theorem digitChar_isDigitRange {d : ℕ} (hd : d < 10) :
    48 ≤ (digitChar d).toNat ∧ (digitChar d).toNat ≤ 57 := by
  rw [digitChar_toNat hd]; omega

theorem natDigits_mem_range {n : ℕ} {c : Char} (hc : c ∈ natDigits n) :
    48 ≤ c.toNat ∧ c.toNat ≤ 57 := by
  induction n using Nat.strong_induction_on with
  | _ n ih =>
    rw [natDigits_eq] at hc
    split at hc
    · rcases List.mem_singleton.mp hc with rfl
      exact digitChar_isDigitRange (by omega)
    · rcases List.mem_append.mp hc with h | h
      · exact ih (n / 10) (Nat.div_lt_self (by omega) (by omega)) h
      · rcases List.mem_singleton.mp h with rfl
        exact digitChar_isDigitRange (Nat.mod_lt _ (by omega))

theorem natDigits_ne_nil (n : ℕ) : natDigits n ≠ [] := by
  rw [natDigits_eq]
  split
  · simp
  · simp

theorem foldl_parse_append (s : List Char) (c : Char) (a : ℕ) :
    (s ++ [c]).foldl (fun a c => a * 10 + (c.toNat - 48)) a =
      (s.foldl (fun a c => a * 10 + (c.toNat - 48)) a) * 10 + (c.toNat - 48) := by
  rw [List.foldl_append]
  rfl

/-- Parsing the decimal rendering of `n` recovers `n` (the
`int(str(n)) = n` round trip). -/
theorem parseDigits_natDigits (n : ℕ) : parseDigits (natDigits n) = n := by
  induction n using Nat.strong_induction_on with
  | _ n ih =>
    rw [natDigits_eq]
    split
    · next h =>
      unfold parseDigits
      simp [List.foldl, digitChar_toNat h]
    · next h =>
      unfold parseDigits at *
      rw [foldl_parse_append]
      rw [ih (n / 10) (Nat.div_lt_self (by omega) (by omega))]
      rw [digitChar_toNat (Nat.mod_lt _ (by omega))]
      omega

/-- Decimal renderings are injective. -/
theorem natDigits_injective : Function.Injective natDigits := by
  intro a b hab
  have := parseDigits_natDigits a
  rw [hab, parseDigits_natDigits] at this
  omega

theorem splitOnChar_not_mem {c : Char} {l : List Char} (h : c ∉ l) :
    splitOnChar c l = [l] := by
  induction l with
  | nil => rfl
  | cons ch rest ih =>
    have hne : ch ≠ c := fun hc => h (hc ▸ List.mem_cons_self ch rest)
    have hr : c ∉ rest := fun hc => h (List.mem_cons_of_mem ch hc)
    simp only [splitOnChar, if_neg hne, ih hr]

theorem splitOnChar_append {c : Char} {l₁ l₂ : List Char} (h : c ∉ l₁) :
    splitOnChar c (l₁ ++ c :: l₂) = l₁ :: splitOnChar c l₂ := by
  induction l₁ with
  | nil => simp [splitOnChar]
  | cons ch rest ih =>
    have hne : ch ≠ c := fun hc => h (hc ▸ List.mem_cons_self ch rest)
    have hr : c ∉ rest := fun hc => h (List.mem_cons_of_mem ch hc)
    have := ih hr
    simp only [List.cons_append, splitOnChar, if_neg hne, List.append_eq, this]

theorem strLt_append_left (s a b : List Char) :
    strLt (s ++ a) (s ++ b) = strLt a b := by
  induction s with
  | nil => rfl
  | cons c cs ih =>
    simp only [List.cons_append, strLt, if_neg (lt_irrefl c.toNat), List.append_eq, ih]

theorem strLe_append_left (s a b : List Char) :
    strLe (s ++ a) (s ++ b) = strLe a b := by
  simp only [strLe, strLt_append_left]

/-! ## Checkpoint Manager (`train.py`, `save_checkpoint` / `load_checkpoint`) -/

/-- Filename written by `save_checkpoint` for a given epoch:
`"checkpoint_{epoch}.pth.tar"` (template `filename.format(epoch=epoch)`). -/
def checkpointFilename (epoch : ℕ) : List Char :=
  ("checkpoint_").data ++ natDigits epoch ++ (".pth.tar").data

/-- Contents of a checkpoint file: the mapping with keys `state_dict`,
`optimizer` and `epoch`.  An `Option` field that is `none` models an entry
whose restoration raises (missing key or incompatible state). -/
structure Ckpt (M O : Type) where
  state_dict : Option M
  optimizer : Option O
  epoch : Option ℕ

/-- Model of `save_checkpoint state epoch`: creates (or overwrites) the file
`checkpoint_{epoch}.pth.tar` holding `state`. -/
def save_checkpoint {M O : Type} (state : Ckpt M O) (epoch : ℕ) :
    List Char × Option (Ckpt M O) :=
  (checkpointFilename epoch, some state)

/-- Filename filter of `load_checkpoint`: `chkpt.endswith('.pth.tar')`. -/
def isPthTar (f : List Char) : Bool := (".pth.tar").data.isSuffixOf f

/-- Key used by `load_checkpoint` to rank checkpoint files:
`int(x.split('_')[1].split('.')[0])`. -/
def checkpointKey (x : List Char) : ℕ :=
  parseDigits ((splitOnChar '.' ((splitOnChar '_' x).getD 1 [])).getD 0 [])

/-- Python's `max(lst, key=key)`: the first element attaining the maximal
key (`none` on an empty list, where Python raises `ValueError`). -/
def pyMaxBy (key : List Char → ℕ) : List (List Char) → Option (List Char)
  | [] => none
  | x :: xs => some (xs.foldl (fun acc y => if key acc < key y then y else acc) x)

/-- File-selection portion of `load_checkpoint` (lines 92–97 of `train.py`):
filter directory entries by the `.pth.tar` suffix and take the one with the
maximal filename-embedded epoch number. -/
def selectLatestCheckpoint (files : List (List Char)) : Option (List Char) :=
  pyMaxBy checkpointKey (files.filter isPthTar)

/-- Model of `load_checkpoint checkpoint_dir model optimizer`.  The directory
is an association list from filenames to file contents (`none` contents model
a file on which `torch.load` itself raises).  Returns the start epoch together
with the model and optimizer state after the call; the `try/except` of the
source is modelled by cutting the remaining steps off at the first failing
one, keeping the mutations already performed. -/
def load_checkpoint {M O : Type} (dir : List (List Char × Option (Ckpt M O)))
    (model : M) (optim : O) : ℕ × M × O :=
  match selectLatestCheckpoint (dir.map Prod.fst) with
  | none => (0, model, optim)
  | some f =>
    match (dir.lookup f).getD none with
    | none => (0, model, optim)
    | some c =>
      match c.state_dict with
      | none => (0, model, optim)
      | some sd =>
        match c.optimizer with
        | none => (0, sd, optim)
        | some op =>
          match c.epoch with
          | none => (0, sd, op)
          | some e => (e, sd, op)

/-- Checkpoint file written by the training loop while processing epoch
`epoch` (lines 136–141 of `train.py`): the `epoch` key holds `epoch + 1`. -/
def trainCheckpoint {M O : Type} (epoch : ℕ) (m : M) (o : O) :
    List Char × Option (Ckpt M O) :=
  save_checkpoint ⟨some m, some o, some (epoch + 1)⟩ epoch

/-- Python's `range(start, stop)` as a list. -/
def pyRange (start stop : ℕ) : List ℕ := List.range' start (stop - start)

/-- Epoch indices executed by the training loop:
`for epoch in range(start_epoch, epochs)` (line 119 of `train.py`). -/
def trainEpochs (start_epoch epochs : ℕ) : List ℕ := pyRange start_epoch epochs

theorem underscore_not_mem_natDigits (n : ℕ) : '_' ∉ natDigits n := by
  intro h
  have := natDigits_mem_range h
  simp at this

theorem dot_not_mem_natDigits (n : ℕ) : '.' ∉ natDigits n := by
  intro h
  have := natDigits_mem_range h
  simp at this

/-- The ranking key recovers the epoch embedded in a checkpoint filename. -/
theorem checkpointKey_checkpointFilename (e : ℕ) :
    checkpointKey (checkpointFilename e) = e := by
  have h1 : checkpointFilename e =
      ("checkpoint").data ++ '_' :: (natDigits e ++ (".pth.tar").data) := by
    show ("checkpoint_").data ++ _ = _
    simp
  have hu : '_' ∉ (("checkpoint").data : List Char) := by decide
  have hu2 : '_' ∉ natDigits e ++ (".pth.tar").data := by
    intro h
    rcases List.mem_append.mp h with h | h
    · exact underscore_not_mem_natDigits e h
    · simp at h
  have h2 : splitOnChar '_' (checkpointFilename e) =
      [("checkpoint").data, natDigits e ++ (".pth.tar").data] := by
    rw [h1, splitOnChar_append hu, splitOnChar_not_mem hu2]
  have h3 : natDigits e ++ (".pth.tar").data =
      natDigits e ++ '.' :: ("pth.tar").data := by simp
  have h4 : splitOnChar '.' (natDigits e ++ (".pth.tar").data) =
      natDigits e :: splitOnChar '.' (("pth.tar").data) := by
    rw [h3, splitOnChar_append (dot_not_mem_natDigits e)]
  unfold checkpointKey
  rw [h2]
  simp only [List.getD_cons_succ, List.getD_cons_zero, h4]
  exact parseDigits_natDigits e

/-- Checkpoint filenames embed their epoch injectively. -/
theorem checkpointFilename_injective : Function.Injective checkpointFilename := by
  intro a b hab
  have ha := checkpointKey_checkpointFilename a
  rw [hab, checkpointKey_checkpointFilename] at ha
  omega

theorem isPthTar_checkpointFilename (e : ℕ) :
    isPthTar (checkpointFilename e) = true := by
  unfold isPthTar checkpointFilename
  exact List.isSuffixOf_iff_suffix.mpr (List.suffix_append _ _)

/-- Helper for `pyMaxBy`: folding Python's max-step over a list returns the
element whose key strictly dominates all other candidates' keys. -/
theorem foldl_maxBy_eq {key : List Char → ℕ} {t : List Char} :
    ∀ (ys : List (List Char)) (acc : List Char),
      (t = acc ∨ t ∈ ys) →
      (∀ y, (y = acc ∨ y ∈ ys) → y ≠ t → key y < key t) →
      ys.foldl (fun acc y => if key acc < key y then y else acc) acc = t := by
  intro ys
  induction ys with
  | nil =>
    intro acc hm _
    rcases hm with rfl | h
    · rfl
    · cases h
  | cons y ys ih =>
    intro acc hm hcond
    simp only [List.foldl_cons]
    have hcondY : ∀ z, (z = y ∨ z ∈ ys) → z ≠ t → key z < key t := by
      intro z hz hzt
      apply hcond z _ hzt
      rcases hz with rfl | h
      · exact Or.inr (List.mem_cons_self _ _)
      · exact Or.inr (List.mem_cons_of_mem _ h)
    have hcondA : ∀ z, (z = acc ∨ z ∈ ys) → z ≠ t → key z < key t := by
      intro z hz hzt
      apply hcond z _ hzt
      rcases hz with rfl | h
      · exact Or.inl rfl
      · exact Or.inr (List.mem_cons_of_mem _ h)
    by_cases hyt : y = t
    · subst hyt
      by_cases hlt : key acc < key y
      · rw [if_pos hlt]
        exact ih y (Or.inl rfl) hcondY
      · rw [if_neg hlt]
        have hacc : acc = y := by
          by_contra hne
          have := hcond acc (Or.inl rfl) hne
          omega
        subst hacc
        exact ih acc (Or.inl rfl) hcondA
    · have hkey : key y < key t :=
        hcond y (Or.inr (List.mem_cons_self _ _)) hyt
      have hm' : t = acc ∨ t ∈ ys := by
        rcases hm with h | h
        · exact Or.inl h
        · rcases List.mem_cons.mp h with h | h
          · exact absurd h.symm hyt
          · exact Or.inr h
      by_cases hlt : key acc < key y
      · rw [if_pos hlt]
        have hacc : acc ≠ t := by
          intro h
          subst h
          omega
        rcases hm' with h | h
        · exact absurd h.symm hacc
        · exact ih y (Or.inr h) hcondY
      · rw [if_neg hlt]
        exact ih acc hm' hcondA

/-- Python's `max(l, key=k)` returns the element whose key strictly dominates
every other element's key. -/
theorem pyMaxBy_eq_of_strict_max {key : List Char → ℕ} {l : List (List Char)}
    {t : List Char} (ht : t ∈ l) (hmax : ∀ y ∈ l, y ≠ t → key y < key t) :
    pyMaxBy key l = some t := by
  match l, ht with
  | x :: xs, ht =>
    have goal1 : ∀ (a : List Char), (t = a ∨ t ∈ xs) → a ∈ x :: xs →
        xs.foldl (fun acc y => if key acc < key y then y else acc) a = t := by
      intro a hta ha
      apply foldl_maxBy_eq xs a hta
      intro z hz hzt
      apply hmax z _ hzt
      rcases hz with rfl | h
      · exact ha
      · exact List.mem_cons_of_mem _ h
    rcases List.mem_cons.mp ht with rfl | hmem
    · simp only [pyMaxBy]
      exact congrArg some (goal1 t (Or.inl rfl) (List.mem_cons_self _ _))
    · simp only [pyMaxBy]
      exact congrArg some (goal1 x (Or.inr hmem) (List.mem_cons_self _ _))

/-! ## Feature / label shards (`eval_crop_optimized.py`) -/

/-- Tail of a feature-shard filename after the split tag:
`"_features_batch_"`. -/
def featTail : List Char := ("_features_batch_").data

/-- Tail of a label-shard filename after the split tag: `"_labels_batch_"`. -/
def labelTail : List Char := ("_labels_batch_").data

/-- The `.npy` filename extension. -/
def npyExt : List Char := (".npy").data

/-- Feature-shard filename `f'{split_name}_features_batch_{i}.npy'`. -/
def featuresShardName (split : List Char) (i : ℕ) : List Char :=
  split ++ featTail ++ natDigits i ++ npyExt

/-- Label-shard filename `f'{split_name}_labels_batch_{i}.npy'`. -/
def labelsShardName (split : List Char) (i : ℕ) : List Char :=
  split ++ labelTail ++ natDigits i ++ npyExt

/-- Files written by the extraction loop of `extract_features_and_labels`
starting at batch index `i`: for each batch, one feature shard
(`np.save` of the aggregated features) followed by one label shard. -/
def extract_write_from {F L : Type} (split : List Char) :
    ℕ → List (List F × List L) → List (List Char × (List F ⊕ List L))
  | _, [] => []
  | i, b :: bs =>
    (featuresShardName split i, Sum.inl b.1) ::
    (labelsShardName split i, Sum.inr b.2) ::
    extract_write_from split (i + 1) bs

/-- Directory contents produced by `extract_features_and_labels` over a
loader whose batches carry the given per-batch feature and label arrays
(batch indices are zero-based in loader-iteration order). -/
def extract_features_and_labels {F L : Type}
    (split : List Char) (batches : List (List F × List L)) :
    List (List Char × (List F ⊕ List L)) :=
  extract_write_from split 0 batches

/-- Model of `np.load` of a feature shard file (the unreachable fallback is
the empty array). -/
def loadFeatureFile {F L : Type} (dir : List (List Char × (List F ⊕ List L)))
    (f : List Char) : List F :=
  match dir.lookup f with
  | some (Sum.inl xs) => xs
  | _ => []

/-- Model of `np.load` of a label shard file. -/
def loadLabelFile {F L : Type} (dir : List (List Char × (List F ⊕ List L)))
    (f : List Char) : List L :=
  match dir.lookup f with
  | some (Sum.inr xs) => xs
  | _ => []

/-- Model of `load_and_concatenate_features(save_dir, split_name)`
(lines 116–126 of `eval_crop_optimized.py`): list the directory, keep the
filenames starting with the split's feature (resp. label) shard pattern,
sort them, load each and concatenate. -/
def load_and_concatenate_features {F L : Type}
    (dir : List (List Char × (List F ⊕ List L))) (split : List Char) :
    List F × List L :=
  let files := dir.map Prod.fst
  let feature_files := pySorted (files.filter
    (fun f => (split ++ featTail).isPrefixOf f))
  let label_files := pySorted (files.filter
    (fun f => (split ++ labelTail).isPrefixOf f))
  ((feature_files.map (loadFeatureFile dir)).flatten,
   (label_files.map (loadLabelFile dir)).flatten)

theorem isPrefixOf_append_left (s a b : List Char) :
    (s ++ a).isPrefixOf (s ++ b) = a.isPrefixOf b := by
  induction s with
  | nil => rfl
  | cons c cs ih =>
    simp only [List.cons_append, List.isPrefixOf, beq_self_eq_true,
      Bool.true_and, List.append_eq, ih]

theorem featPfx_featName (split : List Char) (i : ℕ) :
    (split ++ featTail).isPrefixOf (featuresShardName split i) = true := by
  apply List.isPrefixOf_iff_prefix.mpr
  show split ++ featTail <+: split ++ featTail ++ natDigits i ++ npyExt
  rw [List.append_assoc (split ++ featTail)]
  exact List.prefix_append _ _

theorem labelPfx_labelName (split : List Char) (i : ℕ) :
    (split ++ labelTail).isPrefixOf (labelsShardName split i) = true := by
  apply List.isPrefixOf_iff_prefix.mpr
  show split ++ labelTail <+: split ++ labelTail ++ natDigits i ++ npyExt
  rw [List.append_assoc (split ++ labelTail)]
  exact List.prefix_append _ _

theorem featPfx_labelName (split : List Char) (i : ℕ) :
    (split ++ featTail).isPrefixOf (labelsShardName split i) = false := by
  have h1 : labelsShardName split i =
      split ++ (labelTail ++ (natDigits i ++ npyExt)) := by
    simp [labelsShardName]
  rw [h1, isPrefixOf_append_left]
  rfl

theorem labelPfx_featName (split : List Char) (i : ℕ) :
    (split ++ labelTail).isPrefixOf (featuresShardName split i) = false := by
  have h1 : featuresShardName split i =
      split ++ (featTail ++ (natDigits i ++ npyExt)) := by
    simp [featuresShardName]
  rw [h1, isPrefixOf_append_left]
  rfl

theorem featuresShardName_inj {split : List Char} {i j : ℕ}
    (h : featuresShardName split i = featuresShardName split j) : i = j := by
  unfold featuresShardName at h
  simp only [List.append_assoc] at h
  have h1 := List.append_cancel_left h
  have h2 := List.append_cancel_left h1
  exact natDigits_injective (List.append_cancel_right h2)

theorem labelsShardName_inj {split : List Char} {i j : ℕ}
    (h : labelsShardName split i = labelsShardName split j) : i = j := by
  unfold labelsShardName at h
  simp only [List.append_assoc] at h
  have h1 := List.append_cancel_left h
  have h2 := List.append_cancel_left h1
  exact natDigits_injective (List.append_cancel_right h2)

theorem featuresShardName_ne_labelsShardName (split : List Char) (i j : ℕ) :
    featuresShardName split i ≠ labelsShardName split j := by
  intro h
  have htrue := featPfx_featName split i
  rw [h] at htrue
  rw [featPfx_labelName] at htrue
  cases htrue

theorem extract_write_from_filter_feat {F L : Type} (split : List Char) :
    ∀ (bs : List (List F × List L)) (i : ℕ),
      ((extract_write_from split i bs).map Prod.fst).filter
          (fun f => (split ++ featTail).isPrefixOf f) =
        (List.range' i bs.length).map (featuresShardName split) := by
  intro bs
  induction bs with
  | nil => intro i; rfl
  | cons b bs ih =>
    intro i
    simp only [extract_write_from, List.map_cons, List.length_cons]
    rw [List.filter_cons_of_pos (featPfx_featName split i),
      List.filter_cons_of_neg (by rw [featPfx_labelName split i]; simp)]
    rw [ih (i + 1)]
    rfl

theorem extract_write_from_filter_label {F L : Type} (split : List Char) :
    ∀ (bs : List (List F × List L)) (i : ℕ),
      ((extract_write_from split i bs).map Prod.fst).filter
          (fun f => (split ++ labelTail).isPrefixOf f) =
        (List.range' i bs.length).map (labelsShardName split) := by
  intro bs
  induction bs with
  | nil => intro i; rfl
  | cons b bs ih =>
    intro i
    simp only [extract_write_from, List.map_cons, List.length_cons]
    rw [List.filter_cons_of_neg (by rw [labelPfx_featName split i]; simp),
      List.filter_cons_of_pos (labelPfx_labelName split i)]
    rw [ih (i + 1)]
    rfl

/-- Single-digit shard-filename tails compare in numeric order. -/
theorem digits_npy_le :
    ∀ i < 10, ∀ j < 10, i < j →
      strLe (natDigits i ++ npyExt) (natDigits j ++ npyExt) = true := by
  decide

theorem featNames_sorted (split : List Char) {n : ℕ} (hn : n ≤ 10) :
    List.Sorted (fun a b => strLe a b = true)
      ((List.range' 0 n).map (featuresShardName split)) := by
  rw [List.Sorted, List.pairwise_map]
  apply (List.pairwise_lt_range' 0 n).imp_of_mem
  intro a b ha hb hab
  have hb10 : b < 10 :=
    lt_of_lt_of_le (List.mem_range'_1.mp hb).2 (by omega)
  have ha10 : a < 10 := lt_trans hab hb10
  show strLe (featuresShardName split a) (featuresShardName split b) = true
  have hsa : featuresShardName split a =
      (split ++ featTail) ++ (natDigits a ++ npyExt) := by
    simp [featuresShardName]
  have hsb : featuresShardName split b =
      (split ++ featTail) ++ (natDigits b ++ npyExt) := by
    simp [featuresShardName]
  rw [hsa, hsb, strLe_append_left]
  exact digits_npy_le a ha10 b hb10 hab

theorem labelNames_sorted (split : List Char) {n : ℕ} (hn : n ≤ 10) :
    List.Sorted (fun a b => strLe a b = true)
      ((List.range' 0 n).map (labelsShardName split)) := by
  rw [List.Sorted, List.pairwise_map]
  apply (List.pairwise_lt_range' 0 n).imp_of_mem
  intro a b ha hb hab
  have hb10 : b < 10 :=
    lt_of_lt_of_le (List.mem_range'_1.mp hb).2 (by omega)
  have ha10 : a < 10 := lt_trans hab hb10
  show strLe (labelsShardName split a) (labelsShardName split b) = true
  have hsa : labelsShardName split a =
      (split ++ labelTail) ++ (natDigits a ++ npyExt) := by
    simp [labelsShardName]
  have hsb : labelsShardName split b =
      (split ++ labelTail) ++ (natDigits b ++ npyExt) := by
    simp [labelsShardName]
  rw [hsa, hsb, strLe_append_left]
  exact digits_npy_le a ha10 b hb10 hab

theorem loadFeatureFile_map {F L : Type} (split : List Char) :
    ∀ (bs : List (List F × List L)) (i : ℕ),
      (List.range' i bs.length).map
          (fun j => loadFeatureFile (extract_write_from split i bs)
            (featuresShardName split j)) =
        bs.map Prod.fst := by
  intro bs
  induction bs with
  | nil => intro i; rfl
  | cons b bs ih =>
    intro i
    simp only [List.length_cons]
    rw [show List.range' i (bs.length + 1) = i :: List.range' (i + 1) bs.length
      from rfl]
    rw [List.map_cons, List.map_cons]
    congr 1
    · simp [loadFeatureFile, extract_write_from, List.lookup_cons]
    · rw [← ih (i + 1)]
      apply List.map_congr_left
      intro j hj
      have hji : i + 1 ≤ j := (List.mem_range'_1.mp hj).1
      have h1 : (featuresShardName split j == featuresShardName split i) = false :=
        beq_eq_false_iff_ne.mpr (fun h => by have := featuresShardName_inj h; omega)
      have h2 : (featuresShardName split j == labelsShardName split i) = false :=
        beq_eq_false_iff_ne.mpr (featuresShardName_ne_labelsShardName split j i)
      simp only [loadFeatureFile, extract_write_from, List.lookup_cons, h1, h2]

theorem loadLabelFile_map {F L : Type} (split : List Char) :
    ∀ (bs : List (List F × List L)) (i : ℕ),
      (List.range' i bs.length).map
          (fun j => loadLabelFile (extract_write_from split i bs)
            (labelsShardName split j)) =
        bs.map Prod.snd := by
  intro bs
  induction bs with
  | nil => intro i; rfl
  | cons b bs ih =>
    intro i
    simp only [List.length_cons]
    rw [show List.range' i (bs.length + 1) = i :: List.range' (i + 1) bs.length
      from rfl]
    rw [List.map_cons, List.map_cons]
    congr 1
    · have h0 : (labelsShardName split i == featuresShardName split i) = false :=
        beq_eq_false_iff_ne.mpr
          (Ne.symm (featuresShardName_ne_labelsShardName split i i))
      simp [loadLabelFile, extract_write_from, List.lookup_cons, h0]
    · rw [← ih (i + 1)]
      apply List.map_congr_left
      intro j hj
      have hji : i + 1 ≤ j := (List.mem_range'_1.mp hj).1
      have h1 : (labelsShardName split j == featuresShardName split i) = false :=
        beq_eq_false_iff_ne.mpr
          (Ne.symm (featuresShardName_ne_labelsShardName split i j))
      have h2 : (labelsShardName split j == labelsShardName split i) = false :=
        beq_eq_false_iff_ne.mpr (fun h => by have := labelsShardName_inj h; omega)
      simp only [loadLabelFile, extract_write_from, List.lookup_cons, h1, h2]

/-- Round trip of the shard pipeline for at most ten batches: writing the
shards and reading them back in sorted filename order reproduces the
loader-order feature and label matrices exactly. -/
theorem load_and_concatenate_roundtrip {F L : Type} (split : List Char)
    (batches : List (List F × List L)) (hn : batches.length ≤ 10) :
    load_and_concatenate_features (extract_features_and_labels split batches)
        split
      = ((batches.map Prod.fst).flatten, (batches.map Prod.snd).flatten) := by
  unfold load_and_concatenate_features extract_features_and_labels
  dsimp only
  rw [extract_write_from_filter_feat split batches 0,
    extract_write_from_filter_label split batches 0]
  have hf : pySorted ((List.range' 0 batches.length).map
      (featuresShardName split)) =
      (List.range' 0 batches.length).map (featuresShardName split) :=
    (featNames_sorted split hn).insertionSort_eq
  have hl : pySorted ((List.range' 0 batches.length).map
      (labelsShardName split)) =
      (List.range' 0 batches.length).map (labelsShardName split) :=
    (labelNames_sorted split hn).insertionSort_eq
  rw [hf, hl, List.map_map, List.map_map]
  have hmf := loadFeatureFile_map split batches 0
  have hml := loadLabelFile_map split batches 0
  rw [show ((loadFeatureFile (extract_write_from split 0 batches)) ∘
      (featuresShardName split)) = (fun j =>
        loadFeatureFile (extract_write_from split 0 batches)
          (featuresShardName split j)) from rfl, hmf]
  rw [show ((loadLabelFile (extract_write_from split 0 batches)) ∘
      (labelsShardName split)) = (fun j =>
        loadLabelFile (extract_write_from split 0 batches)
          (labelsShardName split j)) from rfl, hml]

/-! ## Batch chunking and feature extraction (`eval_crop_optimized.py`) -/

/-- Fuel-driven core of `chunks` (structural recursion so that terms reduce
inside the kernel). -/
def chunksCore {α : Type} (n : ℕ) : ℕ → List α → List (List α)
  | 0, _ => []
  | _, [] => []
  | fuel + 1, x :: xs => ((x :: xs).take n) :: chunksCore n fuel ((x :: xs).drop n)

/-- Split a flat list into consecutive chunks of length `n` (the final chunk
may be shorter); this models viewing a flat batch dimension of a tensor as
`[k, n]` together with iteration over the leading axis, and the batch
splitting a `DataLoader` performs. -/
def chunks {α : Type} (n : ℕ) (l : List α) : List (List α) :=
  if n = 0 then [] else chunksCore n l.length l

theorem chunksCore_eq_of_le {α : Type} {n : ℕ} (hn : 0 < n) :
    ∀ (fuel : ℕ) (l : List α) (fuel' : ℕ), l.length ≤ fuel → l.length ≤ fuel' →
      chunksCore n fuel l = chunksCore n fuel' l := by
  intro fuel
  induction fuel with
  | zero =>
    intro l fuel' h _
    have : l = [] := List.length_eq_zero.mp (by omega)
    subst this
    cases fuel' <;> rfl
  | succ fuel ih =>
    intro l fuel' h h'
    match l with
    | [] => cases fuel' <;> rfl
    | x :: xs =>
      match fuel', h' with
      | fuel' + 1, h' =>
        simp only [chunksCore]
        congr 1
        apply ih
        · simp only [List.length_drop]
          simp at h ⊢
          omega
        · simp only [List.length_drop]
          simp at h' ⊢
          omega

theorem chunks_nil {α : Type} (n : ℕ) : chunks n ([] : List α) = [] := by
  unfold chunks
  split
  · rfl
  · rfl

theorem chunks_cons {α : Type} {n : ℕ} (hn : 0 < n) (x : α) (xs : List α) :
    chunks n (x :: xs) =
      ((x :: xs).take n) :: chunks n ((x :: xs).drop n) := by
  unfold chunks
  rw [if_neg (by omega), if_neg (by omega)]
  show chunksCore n (xs.length + 1) (x :: xs) = _
  simp only [chunksCore]
  congr 1
  apply chunksCore_eq_of_le hn
  · simp only [List.length_drop]
    simp
    omega
  · simp

/-- Chunking the concatenation of equal-length rows recovers the rows:
`view(-1, ...)` followed by `view(batch, num_img, -1)` is the identity on
the nested structure. -/
theorem chunks_flatten {α : Type} {n : ℕ} (hn : 0 < n) :
    ∀ (L : List (List α)), (∀ r ∈ L, r.length = n) → chunks n L.flatten = L := by
  intro L
  induction L with
  | nil => intro _; exact chunks_nil n
  | cons r L ih =>
    intro h
    have hr : r.length = n := h r (List.mem_cons_self _ _)
    cases r with
    | nil => simp at hr; omega
    | cons y ys =>
      rw [List.flatten_cons, List.cons_append, chunks_cons hn]
      rw [show (y :: (ys ++ L.flatten)) = (y :: ys) ++ L.flatten from rfl]
      rw [List.take_left' hr, List.drop_left' hr]
      rw [ih (fun r hrL => h r (List.mem_cons_of_mem _ hrL))]

/-- The SimCLR encoder (`train.py` lines 55–69): stage (a) is the backbone
with the classification layer removed followed by flattening (`self.base`
plus `torch.flatten`), stage (b) the two-layer projection head.  Features
and embeddings are rational vectors; images are opaque. -/
structure SimCLREncoder (I : Type) (D E : ℕ) where
  base : I → Fin D → ℚ
  projection_head : (Fin D → ℚ) → (Fin E → ℚ)

/-- Full forward pass of the encoder: projection head applied to the
flattened backbone features. -/
def SimCLREncoder.forward {I : Type} {D E : ℕ} (m : SimCLREncoder I D E)
    (x : I) : Fin E → ℚ :=
  m.projection_head (m.base x)

/-- Per-batch body of `extract_features_and_labels` (lines 88–98 of
`eval_crop_optimized.py`): flatten the `[batch, num_img]` image axes, run
only `model.base`, flatten features, reshape back to `[batch, num_img, -1]`
and average over the `num_img` axis. -/
def processBatch {I : Type} {D E : ℕ} (model : SimCLREncoder I D E)
    (num_img : ℕ) (images : List (List I)) : List (Fin D → ℚ) :=
  let flat := images.flatten
  let output := flat.map model.base
  let grouped := chunks num_img output
  grouped.map (fun g d => (g.map (fun v => v d)).sum / (num_img : ℚ))

/-- Feature rows persisted per batch by the extraction loop over a loader
whose batches each hold `batch` samples of `num_img` images. -/
def extraction_shards {I : Type} {D E : ℕ} (model : SimCLREncoder I D E)
    (num_img : ℕ) (loaderBatches : List (List (List I))) :
    List (List (Fin D → ℚ)) :=
  loaderBatches.map (processBatch model num_img)

/-- A batch of rows all of length `num_img` is mean-pooled rowwise by
`processBatch`, through only `model.base`. -/
theorem processBatch_eq {I : Type} {D E : ℕ} (model : SimCLREncoder I D E)
    {num_img : ℕ} (hn : 0 < num_img) (images : List (List I))
    (himg : ∀ s ∈ images, s.length = num_img) :
    processBatch model num_img images =
      images.map (fun s d =>
        ((s.map (fun im => model.base im d)).sum) / (num_img : ℚ)) := by
  unfold processBatch
  dsimp only
  rw [List.map_flatten]
  rw [chunks_flatten hn (images.map (List.map model.base))
    (by intro r hr
        rcases List.mem_map.mp hr with ⟨s, hs, rfl⟩
        simp [himg s hs])]
  rw [List.map_map]
  apply List.map_congr_left
  intro s _
  funext d
  show ((s.map model.base).map (fun v => v d)).sum / (num_img : ℚ) = _
  rw [List.map_map]
  rfl

/-! ## DataLoader batching (`train.py` line 35, `eval_crop_optimized.py`
lines 59–75) -/

/-- Batches yielded by a PyTorch `DataLoader` over `data` in iteration
order: with `drop_last=True` only the `len(data) / batchSize` full batches
are produced, otherwise a final partial batch is kept. -/
def dataLoaderBatches {α : Type} (batchSize : ℕ) (dropLast : Bool)
    (data : List α) : List (List α) :=
  if dropLast then
    (List.range (data.length / batchSize)).map
      (fun i => (data.drop (i * batchSize)).take batchSize)
  else chunks batchSize data

/-- The loaders built in `train.py` (`get_data_loaders`, line 35–36):
`batch_size=256`, `drop_last` left at its default `False`. -/
def trainLoaderBatches {α : Type} (data : List α) : List (List α) :=
  dataLoaderBatches 256 false data

/-- The configured batch size of `eval_crop_optimized.py` (`BATCH = 32`). -/
def BATCH : ℕ := 32

/-- The loaders built in `eval_crop_optimized.py` (`get_data_loaders`,
lines 59–75): `batch_size=BATCH`, `drop_last=True`. -/
def cropLoaderBatches {α : Type} (data : List α) : List (List α) :=
  dataLoaderBatches BATCH true data

/-- With `drop_last=True` every yielded batch has exactly the configured
size. -/
theorem dataLoaderBatches_dropLast_length {α : Type} {batchSize : ℕ}
    (hn : 0 < batchSize) (data : List α) :
    ∀ b ∈ dataLoaderBatches batchSize true data, b.length = batchSize := by
  intro b hb
  unfold dataLoaderBatches at hb
  rw [if_pos rfl] at hb
  rcases List.mem_map.mp hb with ⟨i, hi, rfl⟩
  have hilt : i < data.length / batchSize := List.mem_range.mp hi
  have hmul : (i + 1) * batchSize ≤ data.length :=
    (Nat.le_div_iff_mul_le hn).mp hilt
  rw [Nat.succ_mul] at hmul
  simp only [List.length_take, List.length_drop]
  omega

/-! ## Incremental evaluation dispatch (`evaluate_model_incremental`) -/

/-- External classifier collaborators of `evaluate_model_incremental`:
abstract incremental (`partial_fit`) and batch (`fit`) training steps plus
prediction, over opaque classifier states. -/
structure EvalDeps (Feat Lab C : Type) where
  initLogistic : C
  partialFit : C → List Feat → List Lab → C
  initKnn : C
  fit : C → List Feat → List Lab → C
  predict : C → List Feat → List Lab

/-- Model of `evaluate_model_incremental` (lines 147–210 of
`eval_crop_optimized.py`): dispatch on the classifier-type string.  The
`"logistic"` branch folds `partial_fit` over the training shards and
predicts shard by shard; the `"knn"` branch concatenates all shards before
one `fit`/`predict`; any other string raises
`ValueError(f"Unsupported classifier type: {classifier_type}")`, modelled
as `Except.error`, before any classifier is fitted or metrics computed. -/
def evaluate_model_incremental {Feat Lab C Metrics : Type}
    (deps : EvalDeps Feat Lab C)
    (computeMetrics : List Lab → List Lab → Metrics)
    (trainShards testShards : List (List Feat × List Lab))
    (classifier_type : List Char) : Except (List Char) Metrics :=
  if classifier_type = ("logistic").data then
    let c := trainShards.foldl (fun c s => deps.partialFit c s.1 s.2)
      deps.initLogistic
    let predictions := (testShards.map (fun s => deps.predict c s.1)).flatten
    let test_labels := (testShards.map Prod.snd).flatten
    Except.ok (computeMetrics test_labels predictions)
  else if classifier_type = ("knn").data then
    let c := deps.fit deps.initKnn (trainShards.map Prod.fst).flatten
      (trainShards.map Prod.snd).flatten
    let predictions := deps.predict c (testShards.map Prod.fst).flatten
    let test_labels := (testShards.map Prod.snd).flatten
    Except.ok (computeMetrics test_labels predictions)
  else
    Except.error (("Unsupported classifier type: ").data ++ classifier_type)

/-! ## NT-Xent contrastive loss (`train.py`, `nt_xent_loss`) -/

/-- Torch `CosineSimilarity(dim=2)` on two feature vectors: dot product
divided by the product of Euclidean norms clamped below by `eps = 1e-8`. -/
noncomputable def cosineSim {D : ℕ} (a b : Fin D → ℝ) : ℝ :=
  (∑ d, a d * b d) /
    max (Real.sqrt (∑ d, a d ^ 2) * Real.sqrt (∑ d, b d ^ 2)) 1e-8

/-- Positive-partner index assigned by `nt_xent_loss`:
`labels = (arange(2N) + N) % (2N)`. -/
def posIndex {N : ℕ} (k : Fin (2 * N)) : Fin (2 * N) :=
  ⟨(k.val + N) % (2 * N), Nat.mod_lt _ k.pos⟩

/-- Model of `nt_xent_loss(z, tau)` (`train.py` lines 39–53) on a stack of
`2N` embeddings of dimension `D`.  The tensor expansion/tiling, diagonal
`-inf` masking (an exponential weight of `0`), row softmax, `gather` at the
shifted labels and the final `-log(p + 1e-9)` mean are translated step by
step. -/
noncomputable def nt_xent_loss {N D : ℕ} (z : Fin (2 * N) → Fin D → ℝ)
    (tau : ℝ) : ℝ :=
  let z_expanded : Fin (2 * N) → Fin (2 * N) → Fin D → ℝ := fun k _l d => z k d
  let z_tiled : Fin (2 * N) → Fin (2 * N) → Fin D → ℝ := fun k l d =>
    z ⟨(k.val * (2 * N) + l.val) % (2 * N), Nat.mod_lt _ l.pos⟩ d
  let sim : Fin (2 * N) → Fin (2 * N) → ℝ := fun k l =>
    cosineSim (z_expanded k l) (z_tiled k l) / tau
  let maskedExp : Fin (2 * N) → Fin (2 * N) → ℝ := fun k l =>
    if k = l then 0 else Real.exp (sim k l)
  let sim_softmax : Fin (2 * N) → Fin (2 * N) → ℝ := fun k l =>
    maskedExp k l / ∑ l', maskedExp k l'
  let pos_probs : Fin (2 * N) → ℝ := fun k => sim_softmax k (posIndex k)
  let loss : ℝ := -(∑ k, Real.log (pos_probs k + 1e-9)) / (2 * N : ℝ)
  loss

/-- Modelled from the spec (§4.2): the row softmax, after diagonal masking,
of the temperature-scaled pairwise cosine-similarity matrix of `z`. -/
noncomputable def specSoftmax {M D : ℕ} (z : Fin M → Fin D → ℝ) (tau : ℝ)
    (k l : Fin M) : ℝ :=
  (if k = l then 0 else Real.exp (cosineSim (z k) (z l) / tau)) /
    ∑ l', if k = l' then 0 else Real.exp (cosineSim (z k) (z l') / tau)

/-- The tiled tensor of `nt_xent_loss` places `z l` at row `k`, column `l`:
`(k * 2N + l) % 2N = l`. -/
theorem tiled_index_eq {N : ℕ} (k l : Fin (2 * N)) :
    (⟨(k.val * (2 * N) + l.val) % (2 * N), Nat.mod_lt _ l.pos⟩ : Fin (2 * N))
      = l := by
  apply Fin.ext
  show (k.val * (2 * N) + l.val) % (2 * N) = l.val
  rw [Nat.mul_comm k.val (2 * N), Nat.mul_add_mod]
  exact Nat.mod_eq_of_lt l.isLt

/-- `nt_xent_loss` computed in closed form: the negative mean over all `2N`
anchors of the log of the masked row-softmax probability at column
`(k + N) % 2N`, plus `1e-9`. -/
theorem nt_xent_loss_eq {N D : ℕ} (z : Fin (2 * N) → Fin D → ℝ) (tau : ℝ) :
    nt_xent_loss z tau =
      -(∑ k, Real.log (specSoftmax z tau k (posIndex k) + 1e-9)) /
        (2 * N : ℝ) := by
  unfold nt_xent_loss specSoftmax
  dsimp only
  simp only [tiled_index_eq]

/-- A permutation of the `N` samples applied identically to the i-block
(rows `0..N-1`) and the j-block (rows `N..2N-1`) of a `2N`-row stack. -/
def blockPermFun {N : ℕ} (p : Fin N → Fin N) (k : Fin (2 * N)) : Fin (2 * N) :=
  if h : k.val < N then
    ⟨(p ⟨k.val, h⟩).val, by have := (p ⟨k.val, h⟩).isLt; omega⟩
  else
    ⟨N + (p ⟨k.val - N, by have := k.isLt; omega⟩).val,
      by have := (p ⟨k.val - N, by have := k.isLt; omega⟩).isLt; omega⟩

theorem blockPermFun_val_lt {N : ℕ} (p : Fin N → Fin N) (k : Fin (2 * N))
    (h : k.val < N) : (blockPermFun p k).val = (p ⟨k.val, h⟩).val := by
  unfold blockPermFun
  rw [dif_pos h]

theorem blockPermFun_val_ge {N : ℕ} (p : Fin N → Fin N) (k : Fin (2 * N))
    (h : ¬ k.val < N) (h2 : k.val - N < N) :
    (blockPermFun p k).val = N + (p ⟨k.val - N, h2⟩).val := by
  unfold blockPermFun
  rw [dif_neg h]

theorem blockPermFun_left_inv {N : ℕ} (p : Equiv.Perm (Fin N)) (k : Fin (2 * N)) :
    blockPermFun p.symm (blockPermFun p k) = k := by
  have hk := k.isLt
  apply Fin.ext
  by_cases h : k.val < N
  · have h1 := blockPermFun_val_lt p k h
    have h2 : (blockPermFun p k).val < N := by
      rw [h1]; exact (p ⟨k.val, h⟩).isLt
    rw [blockPermFun_val_lt p.symm (blockPermFun p k) h2]
    have harg : (⟨(blockPermFun p k).val, h2⟩ : Fin N) = p ⟨k.val, h⟩ := by
      apply Fin.ext
      simp only [Fin.val_mk]
      exact h1
    rw [harg, Equiv.symm_apply_apply]
  · have hsub : k.val - N < N := by omega
    have h1 := blockPermFun_val_ge p k h hsub
    have hplt := (p ⟨k.val - N, hsub⟩).isLt
    have h2 : ¬ (blockPermFun p k).val < N := by omega
    have h3 : (blockPermFun p k).val - N < N := by omega
    rw [blockPermFun_val_ge p.symm (blockPermFun p k) h2 h3]
    have harg : (⟨(blockPermFun p k).val - N, h3⟩ : Fin N) =
        p ⟨k.val - N, hsub⟩ := by
      apply Fin.ext
      simp only [Fin.val_mk]
      omega
    rw [harg, Equiv.symm_apply_apply]
    simp only [Fin.val_mk]
    omega

theorem blockPermFun_bijective {N : ℕ} (p : Equiv.Perm (Fin N)) :
    Function.Bijective (blockPermFun p) := by
  constructor
  · exact Function.LeftInverse.injective (blockPermFun_left_inv p)
  · apply Function.RightInverse.surjective
      (g := blockPermFun (Equiv.symm p))
    intro k
    have := blockPermFun_left_inv p.symm k
    rw [Equiv.symm_symm] at this
    exact this

/-- The block permutation commutes with the circular positive-partner shift
by `N`. -/
theorem blockPermFun_posIndex {N : ℕ} (p : Fin N → Fin N) (k : Fin (2 * N)) :
    blockPermFun p (posIndex k) = posIndex (blockPermFun p k) := by
  have hk := k.isLt
  apply Fin.ext
  by_cases h : k.val < N
  · have hpv : (posIndex k).val = k.val + N := by
      show (k.val + N) % (2 * N) = k.val + N
      exact Nat.mod_eq_of_lt (by omega)
    have hnot : ¬ (posIndex k).val < N := by omega
    have hsub : (posIndex k).val - N < N := by omega
    rw [blockPermFun_val_ge p (posIndex k) hnot hsub]
    have harg : (⟨(posIndex k).val - N, hsub⟩ : Fin N) = ⟨k.val, h⟩ := by
      apply Fin.ext
      simp only [Fin.val_mk]
      omega
    rw [harg]
    show N + (p ⟨k.val, h⟩).val = ((blockPermFun p k).val + N) % (2 * N)
    rw [blockPermFun_val_lt p k h]
    have hplt := (p ⟨k.val, h⟩).isLt
    rw [Nat.mod_eq_of_lt (by omega)]
    omega
  · have hsub : k.val - N < N := by omega
    have hpv : (posIndex k).val = k.val - N := by
      show (k.val + N) % (2 * N) = k.val - N
      rw [Nat.mod_eq_sub_mod (by omega), Nat.mod_eq_of_lt (by omega)]
      omega
    have hlt : (posIndex k).val < N := by omega
    rw [blockPermFun_val_lt p (posIndex k) hlt]
    have harg : (⟨(posIndex k).val, hlt⟩ : Fin N) = ⟨k.val - N, hsub⟩ := by
      apply Fin.ext
      simp only [Fin.val_mk]
      omega
    rw [harg]
    show (p ⟨k.val - N, hsub⟩).val = ((blockPermFun p k).val + N) % (2 * N)
    rw [blockPermFun_val_ge p k h hsub]
    have hplt := (p ⟨k.val - N, hsub⟩).isLt
    rw [show N + (p ⟨k.val - N, hsub⟩).val + N =
      2 * N + (p ⟨k.val - N, hsub⟩).val from by omega]
    rw [Nat.add_mod_left]
    exact (Nat.mod_eq_of_lt (by omega)).symm

/-- The masked row softmax of a permuted stack is the softmax of the
original stack at permuted indices. -/
theorem specSoftmax_comp {M D : ℕ} (z : Fin M → Fin D → ℝ) (tau : ℝ)
    {σ : Fin M → Fin M} (hσ : Function.Bijective σ) (k l : Fin M) :
    specSoftmax (fun k => z (σ k)) tau k l = specSoftmax z tau (σ k) (σ l) := by
  unfold specSoftmax
  have hinj : ∀ a b : Fin M, σ a = σ b ↔ a = b := fun a b =>
    ⟨fun h => hσ.injective h, fun h => h ▸ rfl⟩
  congr 1
  · by_cases h : k = l
    · rw [if_pos h, if_pos ((hinj k l).mpr h)]
    · rw [if_neg h, if_neg (fun hc => h ((hinj k l).mp hc))]
  · rw [← Fintype.sum_bijective σ hσ
      (fun l' => if k = l' then 0
        else Real.exp (cosineSim (z (σ k)) (z (σ l')) / tau))
      (fun l' => if σ k = l' then 0
        else Real.exp (cosineSim (z (σ k)) (z l') / tau))]
    intro x
    by_cases h : k = x
    · rw [if_pos h, if_pos ((hinj k x).mpr h)]
    · rw [if_neg h, if_neg (fun hc => h ((hinj k x).mp hc))]

/-- NT-Xent is invariant under any simultaneous identical permutation of the
i-block and the j-block of the embedding stack. -/
theorem nt_xent_loss_blockPerm {N D : ℕ} (p : Equiv.Perm (Fin N))
    (z : Fin (2 * N) → Fin D → ℝ) (tau : ℝ) :
    nt_xent_loss (fun k => z (blockPermFun p k)) tau = nt_xent_loss z tau := by
  rw [nt_xent_loss_eq, nt_xent_loss_eq]
  congr 1
  congr 1
  rw [← Fintype.sum_bijective (blockPermFun p) (blockPermFun_bijective p)
    (fun k => Real.log
      (specSoftmax (fun k => z (blockPermFun p k)) tau k (posIndex k) + 1e-9))
    (fun k => Real.log (specSoftmax z tau k (posIndex k) + 1e-9))]
  intro k
  rw [specSoftmax_comp z tau (blockPermFun_bijective p) k (posIndex k)]
  rw [blockPermFun_posIndex]

/-- Evaluation of `load_checkpoint` on a directory holding a single
checkpoint file, for every possible failure point of the restore. -/
theorem load_checkpoint_singleton {M O : Type} (e : ℕ) (c : Option (Ckpt M O))
    (m0 : M) (o0 : O) :
    load_checkpoint [(checkpointFilename e, c)] m0 o0 =
      match c with
      | none => (0, m0, o0)
      | some c =>
        match c.state_dict with
        | none => (0, m0, o0)
        | some sd =>
          match c.optimizer with
          | none => (0, sd, o0)
          | some op =>
            match c.epoch with
            | none => (0, sd, op)
            | some ep => (ep, sd, op) := by
  unfold load_checkpoint
  have hsel : selectLatestCheckpoint [checkpointFilename e] =
      some (checkpointFilename e) := by
    unfold selectLatestCheckpoint
    rw [show List.filter isPthTar [checkpointFilename e] =
      [checkpointFilename e] from by
        rw [List.filter_cons_of_pos (isPthTar_checkpointFilename e)]
        rfl]
    rfl
  rw [show List.map Prod.fst [(checkpointFilename e, c)] =
    [checkpointFilename e] from rfl]
  rw [hsel]
  dsimp only
  rw [show List.lookup (checkpointFilename e) [(checkpointFilename e, c)] =
    some c from by simp [List.lookup_cons]]
  rfl

/-! ## Claims -/

/-- C1: for every even-sized embedding stack `z` of `2N` rows (`N ≥ 1`),
`nt_xent_loss` takes the positive partner of anchor `k` to be index
`(k + N) % 2N`: the loss equals the negative mean over all `2N` anchors of
the log of the diagonal-masked row-softmax probability at column
`(k + N) % 2N`, plus `eps = 1e-9`. -/
theorem claim_C1_nt_xent_positive_partner {N D : ℕ} (hN : 1 ≤ N)
    (z : Fin (2 * N) → Fin D → ℝ) (tau : ℝ) :
    nt_xent_loss z tau =
      -(∑ k, Real.log (specSoftmax z tau k (posIndex k) + 1e-9)) /
        (2 * N : ℝ) :=
  nt_xent_loss_eq z tau

/-- Witness for C1 at `N = 1`, `D = 1`, `z = 0`, `tau = 1`. -/
theorem claim_C1_witness :
    1 ≤ 1 ∧
    nt_xent_loss (fun (_ : Fin (2 * 1)) (_ : Fin 1) => (0 : ℝ)) 1 =
      -(∑ k, Real.log (specSoftmax
          (fun (_ : Fin (2 * 1)) (_ : Fin 1) => (0 : ℝ)) 1 k (posIndex k)
        + 1e-9)) / (2 * ((1 : ℕ) : ℝ)) :=
  ⟨le_refl 1,
   claim_C1_nt_xent_positive_partner (le_refl 1)
     (fun (_ : Fin (2 * 1)) (_ : Fin 1) => (0 : ℝ)) 1⟩

/-- C2 counterexample: the checkpoint written while processing epoch `0`
stores epoch value `1`, `load_checkpoint` returns `1`, and the resumed loop
`range(1, 2)` does not contain epoch `0` — the interrupted epoch's batches
are not re-processed. -/
theorem claim_C2_counterexample :
    load_checkpoint [trainCheckpoint 0 (37 : ℕ) (5 : ℕ)] 0 0 = (1, 37, 5) ∧
    trainEpochs 1 2 = [1] ∧ 0 ∉ trainEpochs 1 2 := by
  refine ⟨?_, by decide, by decide⟩
  rw [show trainCheckpoint 0 (37 : ℕ) (5 : ℕ) =
    (checkpointFilename 0, some ⟨some 37, some 5, some 1⟩) from rfl]
  rw [load_checkpoint_singleton]

/-- C2 amended: after a checkpoint written during epoch `e` the stored
epoch value is `e + 1`; on resume `load_checkpoint` returns `e + 1` and the
loop runs exactly the epochs `e + 1 ≤ k < epochs`, skipping the remainder
of the interrupted epoch `e` rather than re-processing it. -/
theorem claim_C2_amended {M O : Type} (e epochs : ℕ) (m : M) (o : O)
    (m0 : M) (o0 : O) (h : e < epochs) :
    (load_checkpoint [trainCheckpoint e m o] m0 o0).1 = e + 1 ∧
    e ∉ trainEpochs (e + 1) epochs ∧
    ∀ k, k ∈ trainEpochs (e + 1) epochs ↔ (e + 1 ≤ k ∧ k < epochs) := by
  refine ⟨?_, ?_, ?_⟩
  · rw [show trainCheckpoint e m o =
      (checkpointFilename e, some ⟨some m, some o, some (e + 1)⟩) from rfl]
    rw [load_checkpoint_singleton]
  · intro hmem
    have := List.mem_range'_1.mp hmem
    omega
  · intro k
    unfold trainEpochs pyRange
    rw [List.mem_range'_1]
    omega

/-- Witness for C2's amended claim at `e = 3`, `epochs = 10`. -/
theorem claim_C2_amended_witness :
    3 < 10 ∧
    ((load_checkpoint [trainCheckpoint 3 (1 : ℕ) (2 : ℕ)] 0 0).1 = 3 + 1 ∧
     3 ∉ trainEpochs (3 + 1) 10 ∧
     ∀ k, k ∈ trainEpochs (3 + 1) 10 ↔ (3 + 1 ≤ k ∧ k < 10)) :=
  ⟨by decide, claim_C2_amended 3 10 1 2 0 0 (by decide)⟩

/-- C3 counterexample: with 11 shard batches the sorted-filename order
places batch 10 between batches 1 and 2, so reading back and concatenating
does not reproduce the pre-write row ordering. -/
theorem claim_C3_counterexample :
    (load_and_concatenate_features
        (extract_features_and_labels (("train").data)
          ((List.range 11).map (fun i => ([i], [i]))))
        (("train").data)).1
      ≠ (((List.range 11).map (fun i => (([i] : List ℕ), ([i] : List ℕ)))).map
          Prod.fst).flatten := by
  decide

/-- C3 amended: for at most ten batches (single-digit shard indices, where
sorted filename order equals numeric batch order) the round trip is exact:
reading the written feature and label shards back in sorted filename order
and concatenating reproduces the loader-order feature and label matrices. -/
theorem claim_C3_amended {F L : Type} (split : List Char)
    (batches : List (List F × List L)) (hn : batches.length ≤ 10) :
    load_and_concatenate_features (extract_features_and_labels split batches)
        split
      = ((batches.map Prod.fst).flatten, (batches.map Prod.snd).flatten) :=
  load_and_concatenate_roundtrip split batches hn

/-- Witness for C3's amended claim on two batches of one sample each. -/
theorem claim_C3_amended_witness :
    ([([1], [2]), ([3], [4])] : List (List ℕ × List ℕ)).length ≤ 10 ∧
    load_and_concatenate_features
        (extract_features_and_labels (("train").data)
          ([([1], [2]), ([3], [4])] : List (List ℕ × List ℕ)))
        (("train").data)
      = ([1, 3], [2, 4]) :=
  ⟨by decide,
   claim_C3_amended (("train").data)
     ([([1], [2]), ([3], [4])] : List (List ℕ × List ℕ)) (by decide)⟩

/-- C4: for every extraction loader whose batches hold samples of `num_img`
images each, every persisted feature row is the elementwise mean over the
`num_img` axis of the per-image stage-(a) backbone feature vectors, the
concatenated matrix has one row per sample, and the projection head is
bypassed entirely (the shards do not depend on it). -/
theorem claim_C4_extraction_mean_pool {I : Type} {D E : ℕ}
    (model : SimCLREncoder I D E) {num_img : ℕ} (hn : 0 < num_img)
    (loader : List (List (List I)))
    (hshape : ∀ b ∈ loader, ∀ s ∈ b, s.length = num_img) :
    (extraction_shards model num_img loader).flatten =
      loader.flatten.map (fun s d =>
        ((s.map (fun im => model.base im d)).sum) / (num_img : ℚ)) ∧
    (extraction_shards model num_img loader).flatten.length =
      loader.flatten.length ∧
    ∀ proj' : (Fin D → ℚ) → (Fin E → ℚ),
      extraction_shards ⟨model.base, proj'⟩ num_img loader =
        extraction_shards model num_img loader := by
  have hmain : (extraction_shards model num_img loader).flatten =
      loader.flatten.map (fun s d =>
        ((s.map (fun im => model.base im d)).sum) / (num_img : ℚ)) := by
    unfold extraction_shards
    rw [List.map_congr_left (fun b hb => processBatch_eq model hn b (hshape b hb))]
    rw [← List.map_flatten]
  refine ⟨hmain, ?_, ?_⟩
  · rw [hmain, List.length_map]
  · intro proj'
    rfl

/-- Witness for C4: three batches of two samples with four images each give
six rows, each the mean of its four per-image backbone vectors. -/
theorem claim_C4_witness :
    (0 < 4 ∧
      (∀ b ∈ List.replicate 3 (List.replicate 2 (List.replicate 4 (0 : ℕ))),
        ∀ s ∈ b, s.length = 4)) ∧
    ((extraction_shards
        (⟨fun im _ => (im : ℚ), fun v => v⟩ : SimCLREncoder ℕ 1 1) 4
        (List.replicate 3 (List.replicate 2 (List.replicate 4 0)))).flatten =
      (List.replicate 3 (List.replicate 2 (List.replicate 4 (0 : ℕ)))).flatten.map
        (fun s d => ((s.map (fun im =>
          (⟨fun im _ => (im : ℚ), fun v => v⟩ : SimCLREncoder ℕ 1 1).base im d)).sum)
            / ((4 : ℕ) : ℚ)) ∧
     (extraction_shards
        (⟨fun im _ => (im : ℚ), fun v => v⟩ : SimCLREncoder ℕ 1 1) 4
        (List.replicate 3 (List.replicate 2 (List.replicate 4 0)))).flatten.length =
      (List.replicate 3 (List.replicate 2 (List.replicate 4 (0 : ℕ)))).flatten.length ∧
     ∀ proj' : (Fin 1 → ℚ) → (Fin 1 → ℚ),
      extraction_shards ⟨(⟨fun im _ => (im : ℚ), fun v => v⟩ : SimCLREncoder ℕ 1 1).base, proj'⟩ 4
          (List.replicate 3 (List.replicate 2 (List.replicate 4 0))) =
        extraction_shards (⟨fun im _ => (im : ℚ), fun v => v⟩ : SimCLREncoder ℕ 1 1) 4
          (List.replicate 3 (List.replicate 2 (List.replicate 4 0)))) :=
  ⟨⟨by decide, by decide⟩,
   claim_C4_extraction_mean_pool
     (⟨fun im _ => (im : ℚ), fun v => v⟩ : SimCLREncoder ℕ 1 1)
     (by decide)
     (List.replicate 3 (List.replicate 2 (List.replicate 4 0)))
     (by decide)⟩

/-- C5: for any non-empty set of saved checkpoint epochs, listed in any
directory order, `load_checkpoint`'s file selection picks the file whose
filename-embedded epoch number is maximal, independent of write order. -/
theorem claim_C5_selects_max_epoch (es : List ℕ) (l : List (List Char))
    (e : ℕ) (hperm : l.Perm (es.map checkpointFilename)) (he : e ∈ es)
    (hmax : ∀ e' ∈ es, e' ≤ e) :
    selectLatestCheckpoint l = some (checkpointFilename e) := by
  unfold selectLatestCheckpoint
  have hall : ∀ f ∈ l, isPthTar f = true := by
    intro f hf
    have hf2 : f ∈ es.map checkpointFilename := hperm.mem_iff.mp hf
    rcases List.mem_map.mp hf2 with ⟨e', _, rfl⟩
    exact isPthTar_checkpointFilename e'
  rw [List.filter_eq_self.mpr hall]
  apply pyMaxBy_eq_of_strict_max
  · exact hperm.mem_iff.mpr (List.mem_map.mpr ⟨e, he, rfl⟩)
  · intro y hy hne
    have hy2 : y ∈ es.map checkpointFilename := hperm.mem_iff.mp hy
    rcases List.mem_map.mp hy2 with ⟨e', he', rfl⟩
    rw [checkpointKey_checkpointFilename, checkpointKey_checkpointFilename]
    have h1 : e' ≠ e := fun hc => hne (hc ▸ rfl)
    have h2 := hmax e' he'
    omega

/-- Witness for C5: after `save(state, epoch=5)` then `save(state, epoch=3)`
(and in the reversed listing order too), the epoch-5 file is selected. -/
theorem claim_C5_witness :
    (5 : ℕ) ∈ [5, 3] ∧ (∀ e' ∈ [5, 3], e' ≤ 5) ∧
    selectLatestCheckpoint [checkpointFilename 5, checkpointFilename 3] =
      some (checkpointFilename 5) ∧
    selectLatestCheckpoint [checkpointFilename 3, checkpointFilename 5] =
      some (checkpointFilename 5) :=
  ⟨by decide, by decide,
   claim_C5_selects_max_epoch [5, 3]
     [checkpointFilename 5, checkpointFilename 3] 5 (List.Perm.refl _)
     (by decide) (by decide),
   claim_C5_selects_max_epoch [5, 3]
     [checkpointFilename 3, checkpointFilename 5] 5
     (List.Perm.swap _ _ _) (by decide) (by decide)⟩

/-- C6: `nt_xent_loss` is invariant under any permutation of the `N`
samples applied identically to the i-block and the j-block of the stack. -/
theorem claim_C6_loss_perm_invariant {N D : ℕ} (p : Equiv.Perm (Fin N))
    (z : Fin (2 * N) → Fin D → ℝ) (tau : ℝ) :
    nt_xent_loss (fun k => z (blockPermFun p k)) tau = nt_xent_loss z tau :=
  nt_xent_loss_blockPerm p z tau

/-- C7: `load_checkpoint` on a directory with no save files returns epoch
`0` and leaves the model and optimizer state unmodified. -/
theorem claim_C7_cold_start {M O : Type}
    (dir : List (List Char × Option (Ckpt M O))) (m : M) (o : O)
    (hempty : (dir.map Prod.fst).filter isPthTar = []) :
    load_checkpoint dir m o = (0, m, o) := by
  unfold load_checkpoint selectLatestCheckpoint
  rw [hempty]
  rfl

/-- Witness for C7 on the empty directory. -/
theorem claim_C7_witness :
    (([] : List (List Char × Option (Ckpt ℕ ℕ))).map Prod.fst).filter isPthTar
      = [] ∧
    load_checkpoint ([] : List (List Char × Option (Ckpt ℕ ℕ))) 1 2 = (0, 1, 2) :=
  ⟨rfl, claim_C7_cold_start [] 1 2 rfl⟩

set_option maxRecDepth 4000 in
/-- C8 counterexample: the training loaders of `train.py` use the default
`drop_last=False` with batch size 256, so a 257-sample split yields a final
batch of 1 sample — not every batch has the configured size. -/
theorem claim_C8_counterexample :
    ¬ (∀ b ∈ trainLoaderBatches (List.replicate 257 (0 : ℕ)),
        b.length = 256) := by
  decide

/-- C8 amended: the extraction/evaluation loaders
(`eval_crop_optimized.py`, `drop_last=True`) always yield batches of exactly
`BATCH` samples; the training loaders of `train.py` keep the final partial
chunk (`drop_last` default `False`). -/
theorem claim_C8_amended {α : Type} (data : List α) :
    (∀ b ∈ cropLoaderBatches data, b.length = BATCH) ∧
    trainLoaderBatches data = chunks 256 data :=
  ⟨dataLoaderBatches_dropLast_length (by decide) data, rfl⟩

/-- C9: `evaluate_model_incremental` with any classifier type other than
`"logistic"` and `"knn"` returns the descriptive unsupported-classifier
error, independent of the classifier collaborators and metrics (nothing is
fitted and no metrics are computed). -/
theorem claim_C9_unsupported_classifier {Feat Lab C Metrics : Type}
    (deps : EvalDeps Feat Lab C)
    (computeMetrics : List Lab → List Lab → Metrics)
    (trainShards testShards : List (List Feat × List Lab))
    (classifier_type : List Char)
    (h1 : classifier_type ≠ ("logistic").data)
    (h2 : classifier_type ≠ ("knn").data) :
    evaluate_model_incremental deps computeMetrics trainShards testShards
        classifier_type =
      Except.error (("Unsupported classifier type: ").data ++ classifier_type)
    := by
  unfold evaluate_model_incremental
  rw [if_neg h1, if_neg h2]

/-- Witness for C9 with classifier type `"svm"`. -/
theorem claim_C9_witness :
    ("svm").data ≠ ("logistic").data ∧ ("svm").data ≠ ("knn").data ∧
    evaluate_model_incremental
        (⟨0, fun c _ _ => c, 0, fun c _ _ => c, fun _ _ => []⟩ :
          EvalDeps ℕ ℕ ℕ)
        (fun _ _ => (0 : ℕ)) [] [] (("svm").data) =
      Except.error (("Unsupported classifier type: ").data ++ ("svm").data) :=
  ⟨by decide, by decide,
   claim_C9_unsupported_classifier _ _ _ _ _ (by decide) (by decide)⟩

/-- C10: `load_checkpoint` is not atomic on restore failure: when the model
state restores but the optimizer restore (or the epoch read) raises, the
call returns `0` as for a cold start while the model keeps the restored
parameters — the pre-call model state is not recovered. -/
theorem claim_C10_not_atomic {M O : Type} (m sd : M) (o : O) (hne : sd ≠ m)
    (eop : Option ℕ) (op : O) :
    (load_checkpoint [(checkpointFilename 7, some ⟨some sd, none, eop⟩)] m o
        = (0, sd, o) ∧
      load_checkpoint [(checkpointFilename 7, some ⟨some sd, some op, none⟩)]
        m o = (0, sd, op)) ∧
    (load_checkpoint [(checkpointFilename 7, some ⟨some sd, none, eop⟩)]
        m o).2.1 ≠ m := by
  refine ⟨⟨?_, ?_⟩, ?_⟩
  · rw [load_checkpoint_singleton]
  · rw [load_checkpoint_singleton]
  · rw [load_checkpoint_singleton]
    exact hne

/-- Witness for C10 with a model state that genuinely changes. -/
theorem claim_C10_witness :
    (1 : ℕ) ≠ 0 ∧
    ((load_checkpoint [(checkpointFilename 7, some ⟨some 1, none, none⟩)]
        (0 : ℕ) (2 : ℕ) = (0, 1, 2) ∧
      load_checkpoint [(checkpointFilename 7, some ⟨some 1, some 3, none⟩)]
        (0 : ℕ) (2 : ℕ) = (0, 1, 3)) ∧
     (load_checkpoint [(checkpointFilename 7, some ⟨some 1, none, none⟩)]
        (0 : ℕ) (2 : ℕ)).2.1 ≠ 0) :=
  ⟨by decide, claim_C10_not_atomic 0 1 2 (by decide) none 3⟩
